import Mathlib

/-!
Shallow embedding of `ABI38_0_0ShadowTree.cpp` (fabric mounting core):
the optimistic commit loop (`ShadowTree::commit` / `ShadowTree::tryCommit`),
the positional mount-flag diff (`updateMountedFlag` / `CommitState`) and
`ShadowTree::commitEmptyTree`, together with theorems settling the
specification claims about them.

Modelling conventions:
- A `ShadowNode` is an immutable tree node with a pointer-stable identity
  (`id` stands for the allocation identity), a `family` key, an optional
  state handle (`hasState`) and an ordered child list.  Pointer equality of
  `shared_ptr`s (`oldChild == newChild`) is modelled by structural equality.
- The mutable `mounted` flag and the `State::commit` side effects of the
  diff pass are modelled as an explicit, ordered list of `MountEvent`s; the
  final value of a node's flag is the last set/unset event that targets it.
- The shared/exclusive locking disappears in the sequential embedding; the
  interleaving of other committers between the snapshot read and the swap is
  modelled by an explicit environment step in the commit loop.
-/

/-- A shadow node: `id` models the C++ object identity (the `shared_ptr`
address), `family` the `ShadowNodeFamily` identity used by
`ShadowNode::sameFamily`, `hasState` whether `getState()` is non-null, and
`children` the ordered child list returned by `getChildren()`. -/
inductive ShadowNode : Type where
  | mk (id : Nat) (family : Nat) (hasState : Bool) (children : List ShadowNode)

namespace ShadowNode

/-- `getChildren()`. -/
def children : ShadowNode → List ShadowNode
  | .mk _ _ _ cs => cs

/-- The `ShadowNodeFamily` identity. -/
def family : ShadowNode → Nat
  | .mk _ f _ _ => f

/-- Whether `getState()` returns a non-null state handle. -/
def hasState : ShadowNode → Bool
  | .mk _ _ st _ => st

/-- The allocation identity (models the `shared_ptr` address). -/
def ident : ShadowNode → Nat
  | .mk i _ _ _ => i

theorem sizeOf_children_lt (n : ShadowNode) : sizeOf n.children < sizeOf n := by
  cases n with
  | mk i f st cs => simp [children]

theorem sizeOf_mem_children_lt {c : ShadowNode} {cs : List ShadowNode}
    (h : c ∈ cs) : sizeOf c < sizeOf cs :=
  List.sizeOf_lt_of_mem h

/-- Structural equality test; since nodes are immutable, structural equality
models `shared_ptr` identity of shared nodes. -/
def beq : ShadowNode → ShadowNode → Bool
  | .mk i f st cs, .mk j g su ds =>
      i == j && f == g && st == su && beqList cs ds
where
  beqList : List ShadowNode → List ShadowNode → Bool
    | [], [] => true
    | a :: as, b :: bs => beq a b && beqList as bs
    | _, _ => false

/-- Course-of-values induction for `ShadowNode` through the nested child
lists. -/
theorem inductionOn {P : ShadowNode → Prop}
    (h : ∀ i f st cs, (∀ c ∈ cs, P c) → P (ShadowNode.mk i f st cs)) :
    ∀ n, P n
  | ShadowNode.mk i f st cs =>
      h i f st cs (fun c hc =>
        have : sizeOf c < sizeOf (ShadowNode.mk i f st cs) := by
          have := sizeOf_mem_children_lt hc; simp; omega
        inductionOn h c)
termination_by n => sizeOf n

theorem beqList_iff_of {cs : List ShadowNode}
    (ih : ∀ c ∈ cs, ∀ b, beq c b = true ↔ c = b) :
    ∀ ds, beq.beqList cs ds = true ↔ cs = ds := by
  induction cs with
  | nil => intro ds; cases ds <;> simp [beq.beqList]
  | cons a as ihl =>
      intro ds
      cases ds with
      | nil => simp [beq.beqList]
      | cons b bs =>
          have ha := ih a (by simp) b
          have has := ihl (fun c hc b => ih c (by simp [hc]) b) bs
          simp [beq.beqList, ha, has]

theorem beq_iff : ∀ a b : ShadowNode, beq a b = true ↔ a = b := by
  intro a
  induction a using ShadowNode.inductionOn with
  | h i f st cs ih =>
      intro b
      cases b with
      | mk j g su ds =>
          have hl := beqList_iff_of (fun c hc b => ih c hc b) ds
          simp [beq, hl, and_assoc]

instance : DecidableEq ShadowNode := fun a b =>
  decidable_of_iff _ (beq_iff a b)

/-- `ShadowNode::sameFamily(first, second)`: family identity comparison. -/
def sameFamily (a b : ShadowNode) : Prop := a.family = b.family

instance (a b : ShadowNode) : Decidable (sameFamily a b) := by
  unfold sameFamily; infer_instance

end ShadowNode

/-- One observable side effect of the diff pass: a `setMounted` call or a
`State::commit` call on a particular node. -/
inductive MountEvent : Type where
  | mounted (n : ShadowNode)
  | unmounted (n : ShadowNode)
  | stateCommit (n : ShadowNode)
deriving DecidableEq

/-- `CommitState(shadowNode)`: calls `state->commit(shadowNode)` when the
node carries a state handle, otherwise does nothing. -/
def commitStateEvents (n : ShadowNode) : List MountEvent :=
  if n.hasState then [MountEvent.stateCommit n] else []

/-- `updateMountedFlag(oldChildren, newChildren)`: the simplified positional
diff that only updates the `mounted` flags, returned here as the ordered
list of emitted events.

The C++ loops are rendered recursively:
- both lists empty: nothing to do (covers the identical-reference and
  both-empty early returns, which emit nothing);
- stage 1 walks the two lists in lockstep: identical nodes are skipped,
  a pair sharing a family is mounted/state-committed/unmounted and its
  children recursed into, and a family mismatch stops stage 1, leaving the
  remainders to stage 2 (mount every remaining new child against an empty
  old list) and stage 3 (unmount every remaining old child against an empty
  new list), in that order;
- a list that runs out during stage 1 leaves only stage 2 or only stage 3. -/
def updateMountedFlag : List ShadowNode → List ShadowNode → List MountEvent
  | [], [] => []
  | [], newChild :: newRest =>
      (MountEvent.mounted newChild :: commitStateEvents newChild
          ++ updateMountedFlag [] newChild.children)
        ++ updateMountedFlag [] newRest
  | oldChild :: oldRest, [] =>
      (MountEvent.unmounted oldChild
          :: updateMountedFlag oldChild.children [])
        ++ updateMountedFlag oldRest []
  | oldChild :: oldRest, newChild :: newRest =>
      if oldChild = newChild then
        updateMountedFlag oldRest newRest
      else if oldChild.sameFamily newChild then
        (MountEvent.mounted newChild :: commitStateEvents newChild
            ++ (MountEvent.unmounted oldChild
                  :: updateMountedFlag oldChild.children newChild.children))
          ++ updateMountedFlag oldRest newRest
      else
        updateMountedFlag [] (newChild :: newRest)
          ++ updateMountedFlag (oldChild :: oldRest) []
termination_by old new => sizeOf old + sizeOf new
decreasing_by
  all_goals simp_wf
  all_goals
    ((try have h1 := ShadowNode.sizeOf_children_lt newChild);
     (try have h2 := ShadowNode.sizeOf_children_lt oldChild);
     omega)

/-- All nodes of a subtree: the node itself followed by every descendant,
in preorder.  Used to phrase "reachable in the tree". -/
def reach : ShadowNode → List ShadowNode
  | .mk i f st cs => ShadowNode.mk i f st cs :: reachList cs
where
  reachList : List ShadowNode → List ShadowNode
    | [] => []
    | c :: cs => reach c ++ reachList cs

/-- All nodes reachable from a list of sibling subtrees. -/
def reachForest (l : List ShadowNode) : List ShadowNode :=
  reach.reachList l

theorem reachForest_nil : reachForest [] = [] := rfl

theorem reachForest_cons (c : ShadowNode) (cs : List ShadowNode) :
    reachForest (c :: cs) = reach c ++ reachForest cs := by
  simp [reachForest, reach.reachList]

theorem reach_def (i f : Nat) (st : Bool) (cs : List ShadowNode) :
    reach (ShadowNode.mk i f st cs) =
      ShadowNode.mk i f st cs :: reachForest cs := by
  simp [reach, reachForest]

theorem self_mem_reach (n : ShadowNode) : n ∈ reach n := by
  cases n with
  | mk i f st cs => rw [reach_def]; exact List.mem_cons_self _ _

theorem reach_children_subset (n : ShadowNode) :
    ∀ x ∈ reachForest n.children, x ∈ reach n := by
  cases n with
  | mk i f st cs =>
      intro x hx
      rw [reach_def]
      exact List.mem_cons_of_mem _ (by simpa [ShadowNode.children] using hx)

/-- Effect of one diff event on the tracked `mounted` flag of node `x`. -/
def flagStep (x : ShadowNode) (acc : Option Bool) : MountEvent → Option Bool
  | MountEvent.mounted y => if y = x then some true else acc
  | MountEvent.unmounted y => if y = x then some false else acc
  | MountEvent.stateCommit _ => acc

/-- The final value of a node's `mounted` flag after a list of diff events
has been applied: the last `setMounted` event targeting the node wins;
`none` when the flag was never touched. -/
def finalFlag (events : List MountEvent) (x : ShadowNode) : Option Bool :=
  events.foldl (flagStep x) none

/-- Events of the stage-2 treatment of one inserted subtree: mark mounted,
commit the state, then diff the children against an empty old list. -/
def mountSubtreeEvents (n : ShadowNode) : List MountEvent :=
  MountEvent.mounted n :: commitStateEvents n
    ++ updateMountedFlag [] n.children

/-- Events of the stage-3 treatment of one removed subtree: mark unmounted,
then diff the children against an empty new list. -/
def unmountSubtreeEvents (o : ShadowNode) : List MountEvent :=
  MountEvent.unmounted o :: updateMountedFlag o.children []

/-- The index at which stage 1 of `updateMountedFlag` stops: the first
position where the two entries do not share a family (identical entries
always share their family), capped at the shorter length. -/
def stage1Boundary : List ShadowNode → List ShadowNode → Nat
  | o :: os, n :: ns =>
      if o = n then stage1Boundary os ns + 1
      else if o.sameFamily n then stage1Boundary os ns + 1
      else 0
  | _, _ => 0

/-- Events emitted by stage 1 for a prefix of update pairs: identical pairs
emit nothing; same-family pairs emit mount, state commit, unmount, then the
recursive diff of the pair's children. -/
def stage1Events : List ShadowNode → List ShadowNode → List MountEvent
  | o :: os, n :: ns =>
      (if o = n then []
       else
         MountEvent.mounted n :: commitStateEvents n
           ++ (MountEvent.unmounted o
                 :: updateMountedFlag o.children n.children))
        ++ stage1Events os ns
  | _, _ => []

/-- Well-formedness of a diff event list with respect to state commits:
every `stateCommit` immediately follows the `mounted` event of the same
node, and every `mounted` event of a node carrying a state handle is
immediately followed by exactly one `stateCommit` of that node; a node
without a state handle never receives a `stateCommit`. -/
def stateEventsWellFormed : List MountEvent → Bool
  | [] => true
  | MountEvent.stateCommit _ :: _ => false
  | MountEvent.unmounted _ :: rest => stateEventsWellFormed rest
  | MountEvent.mounted x :: rest =>
      if x.hasState then
        match rest with
        | MountEvent.stateCommit y :: rest2 =>
            if x = y then stateEventsWellFormed rest2 else false
        | _ => false
      else
        match rest with
        | MountEvent.stateCommit _ :: _ => false
        | _ => stateEventsWellFormed rest

/-- A committed revision as pushed to the `MountingCoordinator` (the
Revision Feed): the root it carries and its sequence number.  The telemetry
payload is an external collaborator and carries no state here. -/
structure Revision where
  root : ShadowNode
  number : Nat
deriving DecidableEq

/-- The observable state of one `ShadowTree`: the current root
(`rootShadowNode_`), the revision counter (`revisionNumber_`), the ordered
list of revisions pushed to the feed, the accumulated diff-pass events, and
the number of delegate notifications
(`shadowTreeDidFinishTransaction`). -/
structure TreeState where
  root : ShadowNode
  revisionNumber : Nat
  feed : List Revision
  mountLog : List MountEvent
  delegateCalls : Nat
deriving DecidableEq

/-- A `ShadowTreeCommitTransaction`: maps the old root to either a
candidate new root or the abort sentinel (`nullptr`), modelled as
`none`. -/
def Txn : Type := ShadowNode → Option ShadowNode

/-- Modelled from the spec: the initial value of the revision counter.  The
`revisionNumber_` field initializer lives in `ABI38_0_0ShadowTree.h`, which
is not among the sources; the spec fixes revision numbers to be
"monotonically increasing per surface starting at 0", matching the
constructor pushing `ShadowTreeRevision{rootShadowNode_, 0, {}}`. -/
def initialRevisionNumber : Nat := 0

/-- The state established by the `ShadowTree` constructor: the fresh root is
current and the feed holds revision number 0 carrying it. -/
def initialState (root0 : ShadowNode) : TreeState :=
  { root := root0
    revisionNumber := initialRevisionNumber
    feed := [{ root := root0, number := 0 }]
    mountLog := []
    delegateCalls := 0 }

/-- One `ShadowTree::tryCommit(transaction)` attempt, split between the
snapshot already read under the shared lock (`oldRoot`) and the live state
`s` at the moment the exclusive lock is taken.  Returns the C++ return
value paired with the state after the attempt.

Faithful to the order of the C++ body: the transaction runs on the
snapshot; a null result returns `false` at once (abort); otherwise, under
the exclusive lock, a current root differing from the snapshot returns
`false` (conflict) with nothing changed; otherwise the candidate becomes
current, the diff pass appends its events, the revision counter is
incremented, the new revision is pushed carrying that number, and the
delegate is notified.  Layout and telemetry are external collaborators with
no observable state here. -/
def tryCommitWith (transaction : Txn) (oldRoot : ShadowNode)
    (s : TreeState) : Bool × TreeState :=
  match transaction oldRoot with
  | none => (false, s)
  | some newRoot =>
      if s.root = oldRoot then
        (true,
          { root := newRoot
            revisionNumber := s.revisionNumber + 1
            feed := s.feed
              ++ [{ root := newRoot, number := s.revisionNumber + 1 }]
            mountLog := s.mountLog
              ++ updateMountedFlag oldRoot.children newRoot.children
            delegateCalls := s.delegateCalls + 1 })
      else (false, s)

/-- `tryCommit` with nobody interfering between the snapshot read and the
swap: the snapshot is the current root itself. -/
def tryCommit (transaction : Txn) (s : TreeState) : Bool × TreeState :=
  tryCommitWith transaction s.root s

/-- The record of one attempt inside `ShadowTree::commit`: the snapshot the
transaction was invoked on, whether `tryCommit` returned true, and the
shared state right after the attempt. -/
structure AttemptRec where
  snapshot : ShadowNode
  ok : Bool
  after : TreeState
deriving DecidableEq

/-- Result of the retry loop of `ShadowTree::commit`: either a normal
return after a successful attempt, or the failure of
`assert(attempts < 1024)` (a fatal halt), each recording the final shared
state and the number of attempts performed. -/
inductive CommitResult : Type where
  | returned (s : TreeState) (attempts : Nat)
  | assertFailed (s : TreeState) (attempts : Nat)
deriving DecidableEq

/-- The retry loop of `ShadowTree::commit`.  `env a` is the interference of
other committers between attempt `a`'s snapshot read and its swap (`envId`
below is the single-threaded schedule).  `fuel` counts how many further
failures `assert(attempts < 1024)` tolerates, so the loop is entered with
`fuel = 1023`: a failing attempt with no fuel left is attempt number 1024,
whose failure makes the assertion fail.  Returns the result together with
the trace of attempts performed. -/
def commitAux (transaction : Txn) (env : Nat → TreeState → TreeState) :
    Nat → Nat → TreeState → CommitResult × List AttemptRec
  | fuel, attempts, s =>
      match tryCommitWith transaction s.root (env (attempts + 1) s) with
      | (true, s2) =>
          (CommitResult.returned s2 (attempts + 1), [⟨s.root, true, s2⟩])
      | (false, s2) =>
          match fuel with
          | 0 =>
              (CommitResult.assertFailed s2 (attempts + 1),
                [⟨s.root, false, s2⟩])
          | fuel2 + 1 =>
              let r := commitAux transaction env fuel2 (attempts + 1) s2
              (r.1, ⟨s.root, false, s2⟩ :: r.2)

/-- The hard cap from `assert(attempts < 1024)`. -/
def maxCommitAttempts : Nat := 1024

/-- `ShadowTree::commit(transaction)` under the interference schedule
`env`. -/
def commit (transaction : Txn) (env : Nat → TreeState → TreeState)
    (s : TreeState) : CommitResult :=
  (commitAux transaction env (maxCommitAttempts - 1) 0 s).1

/-- The attempt trace of `ShadowTree::commit(transaction)`. -/
def commitTrace (transaction : Txn) (env : Nat → TreeState → TreeState)
    (s : TreeState) : List AttemptRec :=
  (commitAux transaction env (maxCommitAttempts - 1) 0 s).2

/-- The single-threaded schedule: no interference. -/
def envId : Nat → TreeState → TreeState := fun _ s => s

/-- The transaction that always returns the abort sentinel. -/
def abortTxn : Txn := fun _ => none

/-- The transaction committed by `ShadowTree::commitEmptyTree`: a copy of
the current root with an empty child list (every placeholder in the
`ShadowNodeFragment` keeps the source node's value). -/
def emptyTreeTxn : Txn := fun oldRoot =>
  some (ShadowNode.mk oldRoot.ident oldRoot.family oldRoot.hasState [])

/-- `ShadowTree::commitEmptyTree()`. -/
def commitEmptyTree (env : Nat → TreeState → TreeState) (s : TreeState) :
    CommitResult :=
  commit emptyTreeTxn env s

/-- Sequential chaining of `tryCommit` attempts, one per transaction. -/
def applyTxns (ts : List Txn) (s : TreeState) : TreeState :=
  ts.foldl (fun s t => (tryCommit t s).2) s

/-- The sequence numbers observed by the Revision Feed, in push order. -/
def feedNumbers (s : TreeState) : List Nat :=
  s.feed.map Revision.number

theorem umf_nil_nil : updateMountedFlag [] [] = [] := by
  simp [updateMountedFlag]

theorem umf_nil_cons (n : ShadowNode) (ns : List ShadowNode) :
    updateMountedFlag [] (n :: ns) =
      (MountEvent.mounted n :: commitStateEvents n
          ++ updateMountedFlag [] n.children)
        ++ updateMountedFlag [] ns := by
  simp [updateMountedFlag]

theorem umf_cons_nil (o : ShadowNode) (os : List ShadowNode) :
    updateMountedFlag (o :: os) [] =
      (MountEvent.unmounted o :: updateMountedFlag o.children [])
        ++ updateMountedFlag os [] := by
  simp [updateMountedFlag]

theorem umf_cons_skip (b : ShadowNode) (os ns : List ShadowNode) :
    updateMountedFlag (b :: os) (b :: ns) = updateMountedFlag os ns := by
  simp [updateMountedFlag]

theorem umf_cons_pair {o n : ShadowNode} (os ns : List ShadowNode)
    (hne : o ≠ n) (hfam : o.sameFamily n) :
    updateMountedFlag (o :: os) (n :: ns) =
      (MountEvent.mounted n :: commitStateEvents n
          ++ (MountEvent.unmounted o
                :: updateMountedFlag o.children n.children))
        ++ updateMountedFlag os ns := by
  simp [updateMountedFlag, hne, hfam]

theorem umf_cons_break {o n : ShadowNode} (os ns : List ShadowNode)
    (hne : o ≠ n) (hfam : ¬ o.sameFamily n) :
    updateMountedFlag (o :: os) (n :: ns) =
      updateMountedFlag [] (n :: ns) ++ updateMountedFlag (o :: os) [] := by
  simp [updateMountedFlag, hne, hfam]

/-- Identical sibling lists produce no events (each pair is skipped by the
identical-nodes fast path), matching the identical-reference early
return. -/
theorem umf_self (l : List ShadowNode) : updateMountedFlag l l = [] := by
  induction l with
  | nil => exact umf_nil_nil
  | cons b bs ih => rw [umf_cons_skip]; exact ih

/-- Against an empty old list the diff inserts everything: stage 2 runs on
each new entry in order. -/
theorem umf_insert_all (ns : List ShadowNode) :
    updateMountedFlag [] ns = ns.flatMap mountSubtreeEvents := by
  induction ns with
  | nil => simp [umf_nil_nil]
  | cons n ns ih =>
      rw [umf_nil_cons, ih]
      simp [mountSubtreeEvents]

/-- Against an empty new list the diff removes everything: stage 3 runs on
each old entry in order. -/
theorem umf_remove_all (os : List ShadowNode) :
    updateMountedFlag os [] = os.flatMap unmountSubtreeEvents := by
  induction os with
  | nil => simp [umf_nil_nil]
  | cons o os ih =>
      rw [umf_cons_nil, ih]
      simp [unmountSubtreeEvents]


theorem mounted_not_mem_commitStateEvents (y n : ShadowNode) :
    MountEvent.mounted y ∉ commitStateEvents n := by
  unfold commitStateEvents
  split <;> simp

theorem unmounted_not_mem_commitStateEvents (y n : ShadowNode) :
    MountEvent.unmounted y ∉ commitStateEvents n := by
  unfold commitStateEvents
  split <;> simp

theorem mem_commitStateEvents {e : MountEvent} {n : ShadowNode}
    (h : e ∈ commitStateEvents n) :
    e = MountEvent.stateCommit n ∧ n.hasState = true := by
  unfold commitStateEvents at h
  rcases hst : n.hasState with _ | _ <;> simp [hst] at h
  exact ⟨h, rfl⟩

/-- Every `setMounted(true)` event of the diff pass targets a node reachable
in the new sibling forest. -/
theorem mounted_mem_reach (old new : List ShadowNode) :
    ∀ y, MountEvent.mounted y ∈ updateMountedFlag old new →
      y ∈ reachForest new := by
  induction old, new using updateMountedFlag.induct with
  | case1 =>
      intro y hy
      rw [umf_nil_nil] at hy
      simp at hy
  | case2 n ns ih1 ih2 =>
      intro y hy
      rw [umf_nil_cons] at hy
      rw [reachForest_cons]
      simp only [List.cons_append, List.mem_cons, List.mem_append] at hy
      rcases hy with hy | (hy | hy) | hy
      · cases hy
        exact List.mem_append_left _ (self_mem_reach n)
      · exact absurd hy (mounted_not_mem_commitStateEvents y n)
      · exact List.mem_append_left _ (reach_children_subset n y (ih1 y hy))
      · exact List.mem_append_right _ (ih2 y hy)
  | case3 o os ih1 ih2 =>
      intro y hy
      rw [umf_cons_nil] at hy
      simp only [List.cons_append, List.mem_cons, List.mem_append] at hy
      rcases hy with hy | hy | hy
      · cases hy
      · exact ih1 y hy
      · exact ih2 y hy
  | case4 os b ns ih =>
      intro y hy
      rw [umf_cons_skip] at hy
      rw [reachForest_cons]
      exact List.mem_append_right _ (ih y hy)
  | case5 o os n ns hne hfam ih1 ih2 =>
      intro y hy
      rw [umf_cons_pair os ns hne hfam] at hy
      rw [reachForest_cons]
      simp only [List.cons_append, List.mem_cons, List.mem_append] at hy
      rcases hy with hy | (hy | hy | hy) | hy
      · cases hy
        exact List.mem_append_left _ (self_mem_reach n)
      · exact absurd hy (mounted_not_mem_commitStateEvents y n)
      · cases hy
      · exact List.mem_append_left _ (reach_children_subset n y (ih1 y hy))
      · exact List.mem_append_right _ (ih2 y hy)
  | case6 o os n ns hne hfam ih1 ih2 =>
      intro y hy
      rw [umf_cons_break os ns hne hfam] at hy
      rcases List.mem_append.mp hy with hy | hy
      · exact ih1 y hy
      · exact absurd (ih2 y hy) (by rw [reachForest_nil]; simp)

/-- Every `setMounted(false)` event of the diff pass targets a node
reachable in the old sibling forest. -/
theorem unmounted_mem_reach (old new : List ShadowNode) :
    ∀ y, MountEvent.unmounted y ∈ updateMountedFlag old new →
      y ∈ reachForest old := by
  induction old, new using updateMountedFlag.induct with
  | case1 =>
      intro y hy
      rw [umf_nil_nil] at hy
      simp at hy
  | case2 n ns ih1 ih2 =>
      intro y hy
      rw [umf_nil_cons] at hy
      simp only [List.cons_append, List.mem_cons, List.mem_append] at hy
      rcases hy with hy | (hy | hy) | hy
      · cases hy
      · exact absurd hy (unmounted_not_mem_commitStateEvents y n)
      · exact absurd (ih1 y hy) (by rw [reachForest_nil]; simp)
      · exact absurd (ih2 y hy) (by rw [reachForest_nil]; simp)
  | case3 o os ih1 ih2 =>
      intro y hy
      rw [umf_cons_nil] at hy
      rw [reachForest_cons]
      simp only [List.cons_append, List.mem_cons, List.mem_append] at hy
      rcases hy with hy | hy | hy
      · cases hy
        exact List.mem_append_left _ (self_mem_reach o)
      · exact List.mem_append_left _ (reach_children_subset o y (ih1 y hy))
      · exact List.mem_append_right _ (ih2 y hy)
  | case4 os b ns ih =>
      intro y hy
      rw [umf_cons_skip] at hy
      rw [reachForest_cons]
      exact List.mem_append_right _ (ih y hy)
  | case5 o os n ns hne hfam ih1 ih2 =>
      intro y hy
      rw [umf_cons_pair os ns hne hfam] at hy
      rw [reachForest_cons]
      simp only [List.cons_append, List.mem_cons, List.mem_append] at hy
      rcases hy with hy | (hy | hy | hy) | hy
      · cases hy
      · exact absurd hy (unmounted_not_mem_commitStateEvents y n)
      · cases hy
        exact List.mem_append_left _ (self_mem_reach o)
      · exact List.mem_append_left _ (reach_children_subset o y (ih1 y hy))
      · exact List.mem_append_right _ (ih2 y hy)
  | case6 o os n ns hne hfam ih1 ih2 =>
      intro y hy
      rw [umf_cons_break os ns hne hfam] at hy
      rcases List.mem_append.mp hy with hy | hy
      · exact absurd (ih1 y hy) (by rw [reachForest_nil]; simp)
      · exact ih2 y hy

theorem mem_reach_cases {x n : ShadowNode} (h : x ∈ reach n) :
    x = n ∨ x ∈ reachForest n.children := by
  cases n with
  | mk i f st cs =>
      rw [reach_def] at h
      simpa [ShadowNode.children] using h

theorem reach_subset_cons (c : ShadowNode) (cs : List ShadowNode) :
    ∀ x ∈ reach c, x ∈ reachForest (c :: cs) := by
  intro x hx
  rw [reachForest_cons]
  exact List.mem_append_left _ hx

theorem reachForest_subset_cons (c : ShadowNode) (cs : List ShadowNode) :
    ∀ x ∈ reachForest cs, x ∈ reachForest (c :: cs) := by
  intro x hx
  rw [reachForest_cons]
  exact List.mem_append_right _ hx

/-- Any node reachable in the new forest whose family is matched by no node
reachable in the old forest receives a `setMounted(true)` event. -/
theorem mounts_unmatched (old new : List ShadowNode) :
    ∀ x ∈ reachForest new,
      (∀ y ∈ reachForest old, y.family ≠ x.family) →
        MountEvent.mounted x ∈ updateMountedFlag old new := by
  induction old, new using updateMountedFlag.induct with
  | case1 =>
      intro x hx
      rw [reachForest_nil] at hx
      simp at hx
  | case2 n ns ih1 ih2 =>
      intro x hx hfam
      rw [reachForest_cons] at hx
      rw [umf_nil_cons]
      rcases List.mem_append.mp hx with hx | hx
      · rcases mem_reach_cases hx with rfl | hx
        · simp
        · have := ih1 x hx (by rw [reachForest_nil]; simp)
          simp only [List.cons_append, List.mem_cons, List.mem_append]
          exact Or.inr (Or.inl (Or.inr this))
      · have := ih2 x hx (by rw [reachForest_nil]; simp)
        exact List.mem_append_right _ this
  | case3 o os ih1 ih2 =>
      intro x hx
      rw [reachForest_nil] at hx
      simp at hx
  | case4 os b ns ih =>
      intro x hx hfam
      rw [reachForest_cons] at hx
      rcases List.mem_append.mp hx with hx | hx
      · exact absurd rfl (hfam x (reach_subset_cons b os x hx))
      · rw [umf_cons_skip]
        exact ih x hx (fun y hy => hfam y (reachForest_subset_cons b os y hy))
  | case5 o os n ns hne hfam ih1 ih2 =>
      intro x hx hfam2
      rw [reachForest_cons] at hx
      rw [umf_cons_pair os ns hne hfam]
      rcases List.mem_append.mp hx with hx | hx
      · rcases mem_reach_cases hx with rfl | hx
        · simp
        · have := ih1 x hx (fun y hy =>
            hfam2 y (reach_subset_cons o os y (reach_children_subset o y hy)))
          simp only [List.cons_append, List.mem_cons, List.mem_append]
          exact Or.inr (Or.inl (Or.inr (Or.inr this)))
      · have := ih2 x hx (fun y hy =>
          hfam2 y (reachForest_subset_cons o os y hy))
        exact List.mem_append_right _ this
  | case6 o os n ns hne hfam ih1 ih2 =>
      intro x hx hfam2
      rw [umf_cons_break os ns hne hfam]
      exact List.mem_append_left _
        (ih1 x hx (by rw [reachForest_nil]; simp))

/-- Any node reachable in the old forest whose family is matched by no node
reachable in the new forest receives a `setMounted(false)` event. -/
theorem unmounts_unmatched (old new : List ShadowNode) :
    ∀ x ∈ reachForest old,
      (∀ y ∈ reachForest new, y.family ≠ x.family) →
        MountEvent.unmounted x ∈ updateMountedFlag old new := by
  induction old, new using updateMountedFlag.induct with
  | case1 =>
      intro x hx
      rw [reachForest_nil] at hx
      simp at hx
  | case2 n ns ih1 ih2 =>
      intro x hx
      rw [reachForest_nil] at hx
      simp at hx
  | case3 o os ih1 ih2 =>
      intro x hx hfam
      rw [reachForest_cons] at hx
      rw [umf_cons_nil]
      rcases List.mem_append.mp hx with hx | hx
      · rcases mem_reach_cases hx with rfl | hx
        · simp
        · have := ih1 x hx (by rw [reachForest_nil]; simp)
          simp only [List.cons_append, List.mem_cons, List.mem_append]
          exact Or.inr (Or.inl this)
      · have := ih2 x hx (by rw [reachForest_nil]; simp)
        exact List.mem_append_right _ this
  | case4 os b ns ih =>
      intro x hx hfam
      rw [reachForest_cons] at hx
      rcases List.mem_append.mp hx with hx | hx
      · exact absurd rfl (hfam x (reach_subset_cons b ns x hx))
      · rw [umf_cons_skip]
        exact ih x hx (fun y hy => hfam y (reachForest_subset_cons b ns y hy))
  | case5 o os n ns hne hfam ih1 ih2 =>
      intro x hx hfam2
      rw [reachForest_cons] at hx
      rw [umf_cons_pair os ns hne hfam]
      rcases List.mem_append.mp hx with hx | hx
      · rcases mem_reach_cases hx with rfl | hx
        · simp
        · have := ih1 x hx (fun y hy =>
            hfam2 y (reach_subset_cons n ns y (reach_children_subset n y hy)))
          simp only [List.cons_append, List.mem_cons, List.mem_append]
          tauto
      · have := ih2 x hx (fun y hy =>
          hfam2 y (reachForest_subset_cons n ns y hy))
        exact List.mem_append_right _ this
  | case6 o os n ns hne hfam ih1 ih2 =>
      intro x hx hfam2
      rw [umf_cons_break os ns hne hfam]
      exact List.mem_append_right _
        (ih2 x hx (by rw [reachForest_nil]; simp))


theorem foldl_flagStep_keeps_true (x : ShadowNode) :
    ∀ evs : List MountEvent, MountEvent.unmounted x ∉ evs →
      evs.foldl (flagStep x) (some true) = some true := by
  intro evs
  induction evs with
  | nil => intro _; rfl
  | cons e rest ih =>
      intro hu
      have hu2 : MountEvent.unmounted x ∉ rest := fun h => hu (by simp [h])
      have hstep : flagStep x (some true) e = some true := by
        cases e with
        | mounted y => by_cases h : y = x <;> simp [flagStep, h]
        | unmounted y =>
            have : y ≠ x := fun h => hu (by simp [h])
            simp [flagStep, this]
        | stateCommit y => simp [flagStep]
      rw [List.foldl_cons, hstep, ih hu2]

theorem foldl_flagStep_keeps_false (x : ShadowNode) :
    ∀ evs : List MountEvent, MountEvent.mounted x ∉ evs →
      evs.foldl (flagStep x) (some false) = some false := by
  intro evs
  induction evs with
  | nil => intro _; rfl
  | cons e rest ih =>
      intro hm
      have hm2 : MountEvent.mounted x ∉ rest := fun h => hm (by simp [h])
      have hstep : flagStep x (some false) e = some false := by
        cases e with
        | mounted y =>
            have : y ≠ x := fun h => hm (by simp [h])
            simp [flagStep, this]
        | unmounted y => by_cases h : y = x <;> simp [flagStep, h]
        | stateCommit y => simp [flagStep]
      rw [List.foldl_cons, hstep, ih hm2]

theorem foldl_flagStep_reaches_true (x : ShadowNode) :
    ∀ evs : List MountEvent, ∀ acc,
      MountEvent.mounted x ∈ evs → MountEvent.unmounted x ∉ evs →
      evs.foldl (flagStep x) acc = some true := by
  intro evs
  induction evs with
  | nil => intro acc h; simp at h
  | cons e rest ih =>
      intro acc hm hu
      have hu2 : MountEvent.unmounted x ∉ rest := fun h => hu (by simp [h])
      by_cases he : e = MountEvent.mounted x
      · subst he
        rw [List.foldl_cons]
        have hstep : flagStep x acc (MountEvent.mounted x) = some true := by
          simp [flagStep]
        rw [hstep]
        exact foldl_flagStep_keeps_true x rest hu2
      · have hm2 : MountEvent.mounted x ∈ rest := by
          rcases List.mem_cons.mp hm with h | h
          · exact absurd h.symm he
          · exact h
        rw [List.foldl_cons]
        exact ih _ hm2 hu2

theorem foldl_flagStep_reaches_false (x : ShadowNode) :
    ∀ evs : List MountEvent, ∀ acc,
      MountEvent.unmounted x ∈ evs → MountEvent.mounted x ∉ evs →
      evs.foldl (flagStep x) acc = some false := by
  intro evs
  induction evs with
  | nil => intro acc h; simp at h
  | cons e rest ih =>
      intro acc hu hm
      have hm2 : MountEvent.mounted x ∉ rest := fun h => hm (by simp [h])
      by_cases he : e = MountEvent.unmounted x
      · subst he
        rw [List.foldl_cons]
        have hstep : flagStep x acc (MountEvent.unmounted x) = some false := by
          simp [flagStep]
        rw [hstep]
        exact foldl_flagStep_keeps_false x rest hm2
      · have hu2 : MountEvent.unmounted x ∈ rest := by
          rcases List.mem_cons.mp hu with h | h
          · exact absurd h.symm he
          · exact h
        rw [List.foldl_cons]
        exact ih _ hu2 hm2

/-- If a node is mounted at least once and never unmounted, its flag ends
up `true`. -/
theorem finalFlag_true {evs : List MountEvent} {x : ShadowNode}
    (hm : MountEvent.mounted x ∈ evs)
    (hu : MountEvent.unmounted x ∉ evs) :
    finalFlag evs x = some true :=
  foldl_flagStep_reaches_true x evs none hm hu

/-- If a node is unmounted at least once and never mounted, its flag ends
up `false`. -/
theorem finalFlag_false {evs : List MountEvent} {x : ShadowNode}
    (hu : MountEvent.unmounted x ∈ evs)
    (hm : MountEvent.mounted x ∉ evs) :
    finalFlag evs x = some false :=
  foldl_flagStep_reaches_false x evs none hu hm

/-- Conservation, insert side: a node reachable in the new forest with no
family match anywhere in the old forest ends with `mounted = true`. -/
theorem finalFlag_unmatched_new {old new : List ShadowNode} {x : ShadowNode}
    (hx : x ∈ reachForest new)
    (hfam : ∀ y ∈ reachForest old, y.family ≠ x.family) :
    finalFlag (updateMountedFlag old new) x = some true := by
  refine finalFlag_true (mounts_unmatched old new x hx hfam) ?_
  intro hy
  exact hfam x (unmounted_mem_reach old new x hy) rfl

/-- Conservation, remove side: a node reachable in the old forest with no
family match anywhere in the new forest ends with `mounted = false`. -/
theorem finalFlag_unmatched_old {old new : List ShadowNode} {x : ShadowNode}
    (hx : x ∈ reachForest old)
    (hfam : ∀ y ∈ reachForest new, y.family ≠ x.family) :
    finalFlag (updateMountedFlag old new) x = some false := by
  refine finalFlag_false (unmounts_unmatched old new x hx hfam) ?_
  intro hy
  exact hfam x (mounted_mem_reach old new x hy) rfl

/-- The stage-1 boundary never exceeds either list. -/
theorem stage1Boundary_le (old new : List ShadowNode) :
    stage1Boundary old new ≤ old.length ∧
      stage1Boundary old new ≤ new.length := by
  induction old generalizing new with
  | nil => cases new <;> simp [stage1Boundary]
  | cons o os ih =>
      cases new with
      | nil => simp [stage1Boundary]
      | cons n ns =>
          have := ih ns
          by_cases he : o = n
          · simp [stage1Boundary, he]; omega
          · by_cases hf : o.sameFamily n
            · simp [stage1Boundary, he, hf]; omega
            · simp [stage1Boundary, he, hf]

/-- Every pair inside the stage-1 boundary shares its family. -/
theorem stage1Boundary_shares_family (old new : List ShadowNode) :
    ∀ p ∈ (old.take (stage1Boundary old new)).zip
        (new.take (stage1Boundary old new)),
      p.1.sameFamily p.2 := by
  induction old generalizing new with
  | nil => cases new <;> simp [stage1Boundary]
  | cons o os ih =>
      cases new with
      | nil => simp [stage1Boundary]
      | cons n ns =>
          intro p hp
          by_cases he : o = n
          · subst he
            rw [show stage1Boundary (o :: os) (o :: ns) =
                stage1Boundary os ns + 1 from by simp [stage1Boundary]] at hp
            rw [List.take_succ_cons, List.take_succ_cons,
              List.zip_cons_cons] at hp
            rcases List.mem_cons.mp hp with rfl | hp2
            · exact rfl
            · exact ih ns p hp2
          · by_cases hf : o.sameFamily n
            · rw [show stage1Boundary (o :: os) (n :: ns) =
                  stage1Boundary os ns + 1 from by
                    simp [stage1Boundary, he, hf]] at hp
              rw [List.take_succ_cons, List.take_succ_cons,
                List.zip_cons_cons] at hp
              rcases List.mem_cons.mp hp with rfl | hp2
              · exact hf
              · exact ih ns p hp2
            · rw [show stage1Boundary (o :: os) (n :: ns) = 0 from by
                  simp [stage1Boundary, he, hf]] at hp
              simp at hp

/-- When the stage-1 boundary falls inside both lists, the entries there
are distinct nodes that do not share a family: stage 1 stopped at the
first family mismatch. -/
theorem stage1Boundary_stop (old new : List ShadowNode) :
    ∀ x y, old[stage1Boundary old new]? = some x →
      new[stage1Boundary old new]? = some y →
      x ≠ y ∧ ¬ x.sameFamily y := by
  induction old generalizing new with
  | nil => intro x y hx _; simp at hx
  | cons o os ih =>
      cases new with
      | nil => intro x y _ hy; simp at hy
      | cons n ns =>
          intro x y hx hy
          by_cases he : o = n
          · subst he
            rw [show stage1Boundary (o :: os) (o :: ns) =
                stage1Boundary os ns + 1 from by
                  simp [stage1Boundary]] at hx hy
            rw [List.getElem?_cons_succ] at hx hy
            exact ih ns x y hx hy
          · by_cases hf : o.sameFamily n
            · rw [show stage1Boundary (o :: os) (n :: ns) =
                  stage1Boundary os ns + 1 from by
                    simp [stage1Boundary, he, hf]] at hx hy
              rw [List.getElem?_cons_succ] at hx hy
              exact ih ns x y hx hy
            · rw [show stage1Boundary (o :: os) (n :: ns) = 0 from by
                  simp [stage1Boundary, he, hf]] at hx hy
              rw [List.getElem?_cons_zero] at hx hy
              obtain rfl := Option.some.inj hx
              obtain rfl := Option.some.inj hy
              exact ⟨he, hf⟩

theorem stage1Events_nil_left (l : List ShadowNode) :
    stage1Events [] l = [] := by
  cases l <;> simp [stage1Events]

theorem stage1Events_nil_right (l : List ShadowNode) :
    stage1Events l [] = [] := by
  cases l <;> simp [stage1Events]

theorem stage1Events_cons (o n : ShadowNode) (os ns : List ShadowNode) :
    stage1Events (o :: os) (n :: ns) =
      (if o = n then []
       else
         MountEvent.mounted n :: commitStateEvents n
           ++ (MountEvent.unmounted o
                 :: updateMountedFlag o.children n.children))
        ++ stage1Events os ns := by
  simp [stage1Events]

/-- The diff pass decomposes into the three stages: the stage-1 events of
the matched prefix, then stage 2 over the new remainder, then stage 3 over
the old remainder. -/
theorem umf_decompose (old new : List ShadowNode) :
    updateMountedFlag old new =
      stage1Events (old.take (stage1Boundary old new))
          (new.take (stage1Boundary old new))
        ++ (new.drop (stage1Boundary old new)).flatMap mountSubtreeEvents
        ++ (old.drop (stage1Boundary old new)).flatMap
             unmountSubtreeEvents := by
  induction old generalizing new with
  | nil =>
      cases new with
      | nil => simp [stage1Boundary, stage1Events, umf_nil_nil]
      | cons n ns =>
          simp [stage1Boundary, stage1Events, umf_insert_all]
  | cons o os ih =>
      cases new with
      | nil =>
          simp [stage1Boundary, stage1Events, umf_remove_all]
      | cons n ns =>
          by_cases he : o = n
          · subst he
            rw [umf_cons_skip, ih ns]
            simp [stage1Boundary, stage1Events]
          · by_cases hf : o.sameFamily n
            · rw [umf_cons_pair os ns he hf, ih ns]
              simp only [stage1Boundary, if_neg he, if_pos hf,
                List.take_succ_cons, List.drop_succ_cons]
              rw [stage1Events_cons]
              simp [he]
            · rw [umf_cons_break os ns he hf]
              simp only [stage1Boundary, if_neg he, if_neg hf,
                List.take_zero, List.drop_zero]
              rw [stage1Events_nil_left]
              simp [umf_insert_all, umf_remove_all]

/-- If stage 1 reaches index `j` (all earlier pairs share a family) and the
entries there are distinct nodes sharing a family, the diff pass emits that
pair's block — mount the new entry, commit its state, unmount the old
entry, then the recursive diff of the pair's children — contiguously,
somewhere in its event list. -/
theorem umf_pair_block (j : Nat) :
    ∀ (old new : List ShadowNode) (o n : ShadowNode),
      old[j]? = some o → new[j]? = some n →
      (∀ p ∈ (old.take j).zip (new.take j), p.1.sameFamily p.2) →
      o ≠ n → o.sameFamily n →
      ∃ pre post, updateMountedFlag old new =
        pre ++ (MountEvent.mounted n :: commitStateEvents n
          ++ (MountEvent.unmounted o
                :: updateMountedFlag o.children n.children))
        ++ post := by
  induction j with
  | zero =>
      intro old new o n ho hn hpre hne hfam
      match old, new with
      | [], _ => simp at ho
      | _ :: _, [] => simp at hn
      | o2 :: os, n2 :: ns =>
          rw [List.getElem?_cons_zero] at ho hn
          obtain rfl := Option.some.inj ho
          obtain rfl := Option.some.inj hn
          refine ⟨[], updateMountedFlag os ns, ?_⟩
          rw [umf_cons_pair os ns hne hfam]
          simp
  | succ j ih =>
      intro old new o n ho hn hpre hne hfam
      match old, new with
      | [], _ => simp at ho
      | _ :: _, [] => simp at hn
      | o2 :: os, n2 :: ns =>
          rw [List.getElem?_cons_succ] at ho hn
          have hfam2 : o2.sameFamily n2 := by
            refine hpre (o2, n2) ?_
            rw [List.take_succ_cons, List.take_succ_cons,
              List.zip_cons_cons]
            exact List.mem_cons_self _ _
          have hpre2 : ∀ p ∈ (os.take j).zip (ns.take j),
              p.1.sameFamily p.2 := by
            intro p hp
            refine hpre p ?_
            rw [List.take_succ_cons, List.take_succ_cons,
              List.zip_cons_cons]
            exact List.mem_cons_of_mem _ hp
          obtain ⟨pre, post, hrec⟩ := ih os ns o n ho hn hpre2 hne hfam
          by_cases he2 : o2 = n2
          · subst he2
            refine ⟨pre, post, ?_⟩
            rw [umf_cons_skip, hrec]
          · refine ⟨(MountEvent.mounted n2 :: commitStateEvents n2
                ++ (MountEvent.unmounted o2
                      :: updateMountedFlag o2.children n2.children))
                ++ pre, post, ?_⟩
            rw [umf_cons_pair os ns he2 hfam2, hrec]
            simp

/-- If stage 1 reaches index `j` and the pair there shares a family, the
recursive diff of that pair's children appears contiguously in the event
list (for identical pairs it is empty, so the subtree is skipped with
identical semantics). -/
theorem umf_recurse_at (j : Nat) :
    ∀ (old new : List ShadowNode) (o n : ShadowNode),
      old[j]? = some o → new[j]? = some n →
      (∀ p ∈ (old.take (j + 1)).zip (new.take (j + 1)),
        p.1.sameFamily p.2) →
      ∃ pre post, updateMountedFlag old new =
        pre ++ updateMountedFlag o.children n.children ++ post := by
  induction j with
  | zero =>
      intro old new o n ho hn hpre
      match old, new with
      | [], _ => simp at ho
      | _ :: _, [] => simp at hn
      | o2 :: os, n2 :: ns =>
          rw [List.getElem?_cons_zero] at ho hn
          have heqo := Option.some.inj ho
          have heqn := Option.some.inj hn
          have hfam : o2.sameFamily n2 := by
            refine hpre (o2, n2) ?_
            rw [List.take_succ_cons, List.take_succ_cons,
              List.zip_cons_cons]
            exact List.mem_cons_self _ _
          rw [← heqo, ← heqn]
          by_cases he : o2 = n2
          · subst he
            refine ⟨[], updateMountedFlag os ns, ?_⟩
            rw [umf_cons_skip, umf_self]
            simp
          · refine ⟨MountEvent.mounted n2 :: commitStateEvents n2
                ++ [MountEvent.unmounted o2], updateMountedFlag os ns, ?_⟩
            rw [umf_cons_pair os ns he hfam]
            simp
  | succ j ih =>
      intro old new o n ho hn hpre
      match old, new with
      | [], _ => simp at ho
      | _ :: _, [] => simp at hn
      | o2 :: os, n2 :: ns =>
          rw [List.getElem?_cons_succ] at ho hn
          have hfam2 : o2.sameFamily n2 := by
            refine hpre (o2, n2) ?_
            rw [List.take_succ_cons, List.take_succ_cons,
              List.zip_cons_cons]
            exact List.mem_cons_self _ _
          have hpre2 : ∀ p ∈ (os.take (j + 1)).zip (ns.take (j + 1)),
              p.1.sameFamily p.2 := by
            intro p hp
            refine hpre p ?_
            rw [List.take_succ_cons, List.take_succ_cons,
              List.zip_cons_cons]
            exact List.mem_cons_of_mem _ hp
          obtain ⟨pre, post, hrec⟩ := ih os ns o n ho hn hpre2
          by_cases he2 : o2 = n2
          · subst he2
            refine ⟨pre, post, ?_⟩
            rw [umf_cons_skip, hrec]
          · refine ⟨(MountEvent.mounted n2 :: commitStateEvents n2
                ++ (MountEvent.unmounted o2
                      :: updateMountedFlag o2.children n2.children))
                ++ pre, post, ?_⟩
            rw [umf_cons_pair os ns he2 hfam2, hrec]
            simp

/-- Whether an event list does not begin with a `stateCommit`. -/
def notStateCommitHead : List MountEvent → Bool
  | MountEvent.stateCommit _ :: _ => false
  | _ => true

theorem swf_nil : stateEventsWellFormed [] = true := rfl

theorem swf_sc (y : ShadowNode) (l : List MountEvent) :
    stateEventsWellFormed (MountEvent.stateCommit y :: l) = false := rfl

theorem swf_unmounted (y : ShadowNode) (l : List MountEvent) :
    stateEventsWellFormed (MountEvent.unmounted y :: l) =
      stateEventsWellFormed l := rfl

theorem swf_mounted_cons {x : ShadowNode} {l : List MountEvent}
    (hok : notStateCommitHead l = true) :
    stateEventsWellFormed (MountEvent.mounted x :: l) =
      if x.hasState then false else stateEventsWellFormed l := by
  cases l with
  | nil => cases hst : x.hasState <;> simp [stateEventsWellFormed, hst]
  | cons e rest =>
      cases e with
      | mounted y =>
          cases hst : x.hasState <;> simp [stateEventsWellFormed, hst]
      | unmounted y =>
          cases hst : x.hasState <;> simp [stateEventsWellFormed, hst]
      | stateCommit y => simp [notStateCommitHead] at hok

theorem swf_mounted_sc (x y : ShadowNode) (l : List MountEvent) :
    stateEventsWellFormed
        (MountEvent.mounted x :: MountEvent.stateCommit y :: l) =
      if x.hasState ∧ x = y then stateEventsWellFormed l else false := by
  by_cases hst : x.hasState <;> by_cases he : x = y <;>
    simp [stateEventsWellFormed, hst, he]

theorem notStateCommitHead_append {a b : List MountEvent}
    (ha : notStateCommitHead a = true) (hb : notStateCommitHead b = true) :
    notStateCommitHead (a ++ b) = true := by
  cases a with
  | nil => simpa using hb
  | cons e rest =>
      cases e <;> simp_all [notStateCommitHead]

theorem notStateCommitHead_of_ne {rest : List MountEvent}
    (h : ∀ y rest2, rest = MountEvent.stateCommit y :: rest2 → False) :
    notStateCommitHead rest = true := by
  cases rest with
  | nil => rfl
  | cons e l =>
      cases e with
      | mounted y => rfl
      | unmounted y => rfl
      | stateCommit y => exact absurd rfl (h y l)

/-- Well-formed event lists concatenate, provided the second does not start
with a dangling `stateCommit`. -/
theorem swf_append : ∀ {a b : List MountEvent},
    stateEventsWellFormed a = true → stateEventsWellFormed b = true →
    notStateCommitHead b = true →
    stateEventsWellFormed (a ++ b) = true := by
  intro a
  induction a using stateEventsWellFormed.induct with
  | case1 => intro b ha hb hok; simpa using hb
  | case2 y l => intro b ha hb hok; rw [swf_sc] at ha; cases ha
  | case3 y l ih =>
      intro b ha hb hok
      rw [swf_unmounted] at ha
      rw [List.cons_append, swf_unmounted]
      exact ih ha hb hok
  | case4 y rest2 hst ih =>
      intro b ha hb hok
      rw [swf_mounted_sc] at ha
      rw [if_pos ⟨hst, rfl⟩] at ha
      rw [List.cons_append, List.cons_append, swf_mounted_sc,
        if_pos ⟨hst, rfl⟩]
      exact ih ha hb hok
  | case5 x hst y rest2 hne =>
      intro b ha hb hok
      rw [swf_mounted_sc, if_neg (by tauto)] at ha
      cases ha
  | case6 x rest hst hnot =>
      intro b ha hb hok
      rw [swf_mounted_cons (notStateCommitHead_of_ne hnot), if_pos hst] at ha
      cases ha
  | case7 x hst y rest2 =>
      intro b ha hb hok
      rw [swf_mounted_sc, if_neg (by tauto)] at ha
      cases ha
  | case8 x rest hst hnot ih =>
      intro b ha hb hok
      rw [swf_mounted_cons (notStateCommitHead_of_ne hnot),
        if_neg hst] at ha
      rw [List.cons_append,
        swf_mounted_cons
          (notStateCommitHead_append (notStateCommitHead_of_ne hnot) hok),
        if_neg hst]
      exact ih ha hb hok

theorem commitStateEvents_true {n : ShadowNode} (h : n.hasState = true) :
    commitStateEvents n = [MountEvent.stateCommit n] := by
  simp [commitStateEvents, h]

theorem commitStateEvents_false {n : ShadowNode} (h : n.hasState = false) :
    commitStateEvents n = [] := by
  simp [commitStateEvents, h]

/-- The diff pass never emits a `stateCommit` first. -/
theorem umf_headOk (old new : List ShadowNode) :
    notStateCommitHead (updateMountedFlag old new) = true := by
  induction old, new using updateMountedFlag.induct with
  | case1 => rw [umf_nil_nil]; rfl
  | case2 n ns ih1 ih2 => rw [umf_nil_cons]; rfl
  | case3 o os ih1 ih2 => rw [umf_cons_nil]; rfl
  | case4 os b ns ih => rw [umf_cons_skip]; exact ih
  | case5 o os n ns hne hfam ih1 ih2 =>
      rw [umf_cons_pair os ns hne hfam]; rfl
  | case6 o os n ns hne hfam ih1 ih2 =>
      rw [umf_cons_break os ns hne hfam, umf_nil_cons]
      rfl

theorem notStateCommitHead_commitStateEvents_append
    (n : ShadowNode) (l : List MountEvent)
    (hl : notStateCommitHead l = true) (hst : n.hasState = false) :
    notStateCommitHead (commitStateEvents n ++ l) = true := by
  rw [commitStateEvents, hst]
  simpa using hl

/-- The events of one diff pass are well formed with respect to state
commits: every `stateCommit` immediately follows the `mounted` event of the
same node, and every `mounted` event of a node that carries state is
immediately followed by its `stateCommit`. -/
theorem swf_umf (old new : List ShadowNode) :
    stateEventsWellFormed (updateMountedFlag old new) = true := by
  induction old, new using updateMountedFlag.induct with
  | case1 => rw [umf_nil_nil]; rfl
  | case2 n ns ih1 ih2 =>
      rw [umf_nil_cons]
      have hrest : stateEventsWellFormed
          (updateMountedFlag [] n.children ++ updateMountedFlag [] ns) =
            true :=
        swf_append ih1 ih2 (umf_headOk [] ns)
      have hok : notStateCommitHead
          (updateMountedFlag [] n.children ++ updateMountedFlag [] ns) =
            true :=
        notStateCommitHead_append (umf_headOk [] n.children)
          (umf_headOk [] ns)
      cases hst : n.hasState with
      | true =>
          rw [commitStateEvents_true hst]
          simpa [swf_mounted_sc, hst] using hrest
      | false =>
          rw [commitStateEvents_false hst]
          simpa [swf_mounted_cons hok, hst] using hrest
  | case3 o os ih1 ih2 =>
      rw [umf_cons_nil]
      rw [List.cons_append, swf_unmounted]
      exact swf_append ih1 ih2 (umf_headOk os [])
  | case4 os b ns ih => rw [umf_cons_skip]; exact ih
  | case5 o os n ns hne hfam ih1 ih2 =>
      rw [umf_cons_pair os ns hne hfam]
      have hrest : stateEventsWellFormed
          (updateMountedFlag o.children n.children
            ++ updateMountedFlag os ns) = true :=
        swf_append ih1 ih2 (umf_headOk os ns)
      have key : stateEventsWellFormed
          (MountEvent.unmounted o
            :: (updateMountedFlag o.children n.children
                  ++ updateMountedFlag os ns)) = true := by
        rw [swf_unmounted]
        exact hrest
      cases hst : n.hasState with
      | true =>
          rw [commitStateEvents_true hst]
          simp only [List.cons_append, List.singleton_append,
            List.append_assoc]
          rw [swf_mounted_sc, if_pos ⟨hst, rfl⟩]
          exact key
      | false =>
          rw [commitStateEvents_false hst]
          simp only [List.cons_append, List.nil_append, List.append_assoc]
          rw [swf_mounted_cons (by rfl), if_neg (by simp [hst])]
          exact key
  | case6 o os n ns hne hfam ih1 ih2 =>
      rw [umf_cons_break os ns hne hfam]
      exact swf_append ih1 ih2 (umf_headOk (o :: os) [])

/-- In a well-formed event list, each node with a state handle receives
exactly one `stateCommit` per `mounted` event, and a node without a state
handle receives none. -/
theorem swf_count : ∀ evs : List MountEvent,
    stateEventsWellFormed evs = true →
    ∀ x : ShadowNode,
      evs.count (MountEvent.stateCommit x) =
        if x.hasState then evs.count (MountEvent.mounted x) else 0 := by
  intro evs
  induction evs using stateEventsWellFormed.induct with
  | case1 => intro _ x; cases hst : x.hasState <;> simp [hst]
  | case2 y l => intro ha; rw [swf_sc] at ha; cases ha
  | case3 y l ih =>
      intro ha x
      rw [swf_unmounted] at ha
      have := ih ha x
      cases hst : x.hasState <;>
        simp_all [List.count_cons]
  | case4 y rest2 hst ih =>
      intro ha x
      rw [swf_mounted_sc, if_pos ⟨hst, rfl⟩] at ha
      have := ih ha x
      by_cases hxy : x = y
      · subst hxy
        rw [hst] at this ⊢
        simp_all [List.count_cons]
      · cases hst2 : x.hasState <;>
          simp_all [List.count_cons, hxy]
  | case5 x2 hst y rest2 hne =>
      intro ha
      rw [swf_mounted_sc, if_neg (by tauto)] at ha
      cases ha
  | case6 x2 rest hst hnot =>
      intro ha
      rw [swf_mounted_cons (notStateCommitHead_of_ne hnot),
        if_pos hst] at ha
      cases ha
  | case7 x2 hst y rest2 =>
      intro ha
      rw [swf_mounted_sc, if_neg (by tauto)] at ha
      cases ha
  | case8 x2 rest hst hnot ih =>
      intro ha x
      rw [swf_mounted_cons (notStateCommitHead_of_ne hnot),
        if_neg hst] at ha
      have := ih ha x
      by_cases hxy : x = x2
      · subst hxy
        have hfalse : x.hasState = false := by
          cases h2 : x.hasState
          · rfl
          · exact absurd h2 hst
        rw [hfalse] at this ⊢
        simp_all [List.count_cons]
      · cases hst2 : x.hasState <;>
          simp_all [List.count_cons, hxy]

/-- The state produced by a successful swap at `tryCommit`: candidate
becomes current, diff events are appended, the counter is incremented, the
revision is pushed with the new number, the delegate is notified. -/
def commitStep (oldRoot newRoot : ShadowNode) (s : TreeState) : TreeState :=
  { root := newRoot
    revisionNumber := s.revisionNumber + 1
    feed := s.feed ++ [{ root := newRoot, number := s.revisionNumber + 1 }]
    mountLog := s.mountLog
      ++ updateMountedFlag oldRoot.children newRoot.children
    delegateCalls := s.delegateCalls + 1 }

theorem tryCommitWith_abort {t : Txn} {oldRoot : ShadowNode}
    (s : TreeState) (h : t oldRoot = none) :
    tryCommitWith t oldRoot s = (false, s) := by
  simp [tryCommitWith, h]

theorem tryCommitWith_conflict {t : Txn} {oldRoot : ShadowNode}
    {s : TreeState} (h : s.root ≠ oldRoot) :
    tryCommitWith t oldRoot s = (false, s) := by
  unfold tryCommitWith
  cases ht : t oldRoot with
  | none => rfl
  | some nr => simp [h]

theorem tryCommitWith_success {t : Txn} {oldRoot newRoot : ShadowNode}
    {s : TreeState} (ht : t oldRoot = some newRoot)
    (hr : s.root = oldRoot) :
    tryCommitWith t oldRoot s = (true, commitStep oldRoot newRoot s) := by
  simp [tryCommitWith, ht, hr, commitStep]

theorem tryCommitWith_true_inv {t : Txn} {oldRoot : ShadowNode}
    {s s2 : TreeState}
    (h : tryCommitWith t oldRoot s = (true, s2)) :
    s.root = oldRoot ∧ ∃ newRoot, t oldRoot = some newRoot ∧
      s2 = commitStep oldRoot newRoot s := by
  unfold tryCommitWith at h
  cases ht : t oldRoot with
  | none => rw [ht] at h; simp at h
  | some nr =>
      rw [ht] at h
      simp only [] at h
      by_cases hr : s.root = oldRoot
      · rw [if_pos hr] at h
        have h2 := congrArg Prod.snd h
        refine ⟨hr, nr, rfl, ?_⟩
        simpa [commitStep] using h2.symm
      · rw [if_neg hr] at h
        simp at h

theorem tryCommitWith_false_inv {t : Txn} {oldRoot : ShadowNode}
    {s s2 : TreeState}
    (h : tryCommitWith t oldRoot s = (false, s2)) : s2 = s := by
  unfold tryCommitWith at h
  cases ht : t oldRoot with
  | none =>
      rw [ht] at h
      exact (congrArg Prod.snd h).symm
  | some nr =>
      rw [ht] at h
      simp only [] at h
      by_cases hr : s.root = oldRoot
      · rw [if_pos hr] at h
        simp at h
      · rw [if_neg hr] at h
        exact (congrArg Prod.snd h).symm

/-- Number of failed attempts recorded in a trace. -/
def failedCount (tr : List AttemptRec) : Nat :=
  tr.countP (fun r => !r.ok)

/-- A run of the commit loop against a transaction that always aborts: every
attempt fails leaving the state untouched, and after 1024 attempts (entered
with `fuel = 1023`) the assertion fails. -/
theorem commitAux_abort (fuel : Nat) : ∀ attempts s,
    commitAux abortTxn envId fuel attempts s =
      (CommitResult.assertFailed s (attempts + fuel + 1),
       List.replicate (fuel + 1) ⟨s.root, false, s⟩) := by
  induction fuel with
  | zero =>
      intro attempts s
      rw [commitAux]
      simp [tryCommitWith, abortTxn, envId, List.replicate]
  | succ fuel2 ih =>
      intro attempts s
      rw [commitAux]
      simp only [tryCommitWith, abortTxn, envId]
      rw [ih (attempts + 1) s]
      simp [List.replicate]
      omega

/-- If the commit loop returns normally, the final recorded attempt
succeeded and produced the returned state, every earlier attempt failed,
and fewer failures happened than the assertion tolerates. -/
theorem commitAux_returned_spec (t : Txn)
    (env : Nat → TreeState → TreeState) :
    ∀ fuel attempts s s2 a,
      (commitAux t env fuel attempts s).1 = CommitResult.returned s2 a →
      attempts < a ∧ a ≤ attempts + fuel + 1 ∧
      failedCount (commitAux t env fuel attempts s).2 = a - attempts - 1 ∧
      ∃ r, (commitAux t env fuel attempts s).2.getLast? = some r ∧
        r.ok = true ∧ r.after = s2 := by
  intro fuel
  induction fuel with
  | zero =>
      intro attempts s s2 a h
      rw [commitAux] at h ⊢
      cases htc : tryCommitWith t s.root (env (attempts + 1) s) with
      | mk ok s3 =>
          rw [htc] at h
          cases ok with
          | true =>
              simp only [] at h
              obtain ⟨h1, h2⟩ := CommitResult.returned.inj h
              subst h1
              subst h2
              refine ⟨by omega, by omega, by simp [failedCount], ?_⟩
              exact ⟨⟨s.root, true, s3⟩, rfl, rfl, rfl⟩
          | false =>
              simp only [] at h
              cases h
  | succ fuel2 ih =>
      intro attempts s s2 a h
      rw [commitAux] at h ⊢
      cases htc : tryCommitWith t s.root (env (attempts + 1) s) with
      | mk ok s3 =>
          rw [htc] at h
          cases ok with
          | true =>
              simp only [] at h
              obtain ⟨h1, h2⟩ := CommitResult.returned.inj h
              subst h1
              subst h2
              refine ⟨by omega, by omega, by simp [failedCount], ?_⟩
              exact ⟨⟨s.root, true, s3⟩, rfl, rfl, rfl⟩
          | false =>
              simp only [] at h ⊢
              obtain ⟨ha1, ha2, ha3, r, hr1, hr2, hr3⟩ :=
                ih (attempts + 1) s3 s2 a h
              refine ⟨by omega, by omega, ?_, ?_⟩
              · simp only [failedCount, List.countP_cons]
                simp only [failedCount] at ha3
                simp [ha3]
                omega
              · exact ⟨r, List.mem_getLast?_cons hr1, hr2, hr3⟩

/-- If the commit loop dies on the assertion, it performed exactly
`fuel + 1` attempts beyond `attempts`, all of which failed. -/
theorem commitAux_assertFailed_spec (t : Txn)
    (env : Nat → TreeState → TreeState) :
    ∀ fuel attempts s s2 a,
      (commitAux t env fuel attempts s).1 = CommitResult.assertFailed s2 a →
      a = attempts + fuel + 1 ∧
      failedCount (commitAux t env fuel attempts s).2 = fuel + 1 ∧
      ∀ r ∈ (commitAux t env fuel attempts s).2, r.ok = false := by
  intro fuel
  induction fuel with
  | zero =>
      intro attempts s s2 a h
      rw [commitAux] at h ⊢
      cases htc : tryCommitWith t s.root (env (attempts + 1) s) with
      | mk ok s3 =>
          rw [htc] at h
          cases ok with
          | true =>
              simp only [] at h
              cases h
          | false =>
              simp only [] at h ⊢
              obtain ⟨h1, h2⟩ := CommitResult.assertFailed.inj h
              subst h1
              subst h2
              refine ⟨rfl, by simp [failedCount], ?_⟩
              intro r hr
              simp at hr
              rw [hr]
  | succ fuel2 ih =>
      intro attempts s s2 a h
      rw [commitAux] at h ⊢
      cases htc : tryCommitWith t s.root (env (attempts + 1) s) with
      | mk ok s3 =>
          rw [htc] at h
          cases ok with
          | true =>
              simp only [] at h
              cases h
          | false =>
              simp only [] at h ⊢
              obtain ⟨ha1, ha2, ha3⟩ := ih (attempts + 1) s3 s2 a h
              refine ⟨by omega, ?_, ?_⟩
              · simp only [failedCount, List.countP_cons]
                simp only [failedCount] at ha2
                simp [ha2]
              · intro r hr
                rcases List.mem_cons.mp hr with rfl | hr
                · rfl
                · exact ha3 r hr

/-- The retry loop always reads its snapshot fresh: the first attempt's
snapshot is the current root, and after a failed attempt the next attempt's
snapshot is exactly the root of the state the failed attempt left behind. -/
theorem commitAux_chain (t : Txn) (env : Nat → TreeState → TreeState) :
    ∀ fuel attempts s,
      (∀ r, (commitAux t env fuel attempts s).2[0]? = some r →
        r.snapshot = s.root) ∧
      (∀ i r1 r2,
        (commitAux t env fuel attempts s).2[i]? = some r1 →
        (commitAux t env fuel attempts s).2[i + 1]? = some r2 →
        r2.snapshot = r1.after.root) := by
  intro fuel
  induction fuel with
  | zero =>
      intro attempts s
      rw [commitAux]
      cases htc : tryCommitWith t s.root (env (attempts + 1) s) with
      | mk ok s3 =>
          cases ok with
          | true =>
              constructor
              · intro r hr
                rw [List.getElem?_cons_zero] at hr
                obtain rfl := Option.some.inj hr
                rfl
              · intro i r1 r2 h1 h2
                rw [List.getElem?_cons_succ] at h2
                simp at h2
          | false =>
              constructor
              · intro r hr
                rw [List.getElem?_cons_zero] at hr
                obtain rfl := Option.some.inj hr
                rfl
              · intro i r1 r2 h1 h2
                rw [List.getElem?_cons_succ] at h2
                simp at h2
  | succ fuel2 ih =>
      intro attempts s
      rw [commitAux]
      cases htc : tryCommitWith t s.root (env (attempts + 1) s) with
      | mk ok s3 =>
          cases ok with
          | true =>
              constructor
              · intro r hr
                rw [List.getElem?_cons_zero] at hr
                obtain rfl := Option.some.inj hr
                rfl
              · intro i r1 r2 h1 h2
                rw [List.getElem?_cons_succ] at h2
                simp at h2
          | false =>
              constructor
              · intro r hr
                simp only [] at hr
                rw [List.getElem?_cons_zero] at hr
                obtain rfl := Option.some.inj hr
                rfl
              · intro i r1 r2 h1 h2
                simp only [] at h1 h2
                cases i with
                | zero =>
                    rw [List.getElem?_cons_zero] at h1
                    obtain rfl := Option.some.inj h1
                    rw [List.getElem?_cons_succ] at h2
                    exact (ih (attempts + 1) s3).1 r2 h2
                | succ j =>
                    rw [List.getElem?_cons_succ] at h1 h2
                    exact (ih (attempts + 1) s3).2 j r1 r2 h1 h2

/-- The Revision Feed invariant: the numbers pushed so far are exactly
`0, 1, ..., revisionNumber` in order. -/
def feedInv (s : TreeState) : Prop :=
  feedNumbers s = List.range (s.revisionNumber + 1)

theorem feedInv_initial (root0 : ShadowNode) :
    feedInv (initialState root0) := by
  simp [feedInv, feedNumbers, initialState, initialRevisionNumber,
    List.range_succ]

theorem feedInv_commitStep {s : TreeState} (h : feedInv s)
    (oldRoot newRoot : ShadowNode) :
    feedInv (commitStep oldRoot newRoot s) := by
  unfold feedInv feedNumbers at h ⊢
  simp only [commitStep, List.map_append, List.map_cons, List.map_nil, h]
  conv_rhs => rw [List.range_succ]

theorem feedInv_tryCommit {s : TreeState} (h : feedInv s) (t : Txn) :
    feedInv (tryCommit t s).2 := by
  cases htc : tryCommit t s with
  | mk ok s2 =>
      cases ok with
      | true =>
          obtain ⟨hr, newRoot, ht, rfl⟩ := tryCommitWith_true_inv htc
          exact feedInv_commitStep h _ _
      | false =>
          obtain rfl := tryCommitWith_false_inv htc
          exact h

theorem feedInv_applyTxns (ts : List Txn) :
    ∀ s : TreeState, feedInv s → feedInv (applyTxns ts s) := by
  induction ts with
  | nil => intro s h; exact h
  | cons t ts ih =>
      intro s h
      rw [show applyTxns (t :: ts) s = applyTxns ts (tryCommit t s).2 from
        rfl]
      exact ih _ (feedInv_tryCommit h t)

/-- When the transaction succeeds against the current root with nobody
interfering, the first attempt of the retry loop already commits. -/
theorem commit_first_success {t : Txn} {s : TreeState}
    {newRoot : ShadowNode} (ht : t s.root = some newRoot) :
    commit t envId s =
      CommitResult.returned (commitStep s.root newRoot s) 1 ∧
    commitTrace t envId s =
      [⟨s.root, true, commitStep s.root newRoot s⟩] := by
  unfold commit commitTrace maxCommitAttempts
  rw [commitAux]
  rw [show envId 1 s = s from rfl]
  rw [tryCommitWith_success ht rfl]
  exact ⟨rfl, rfl⟩

/-- The identity transaction: commits the snapshot unchanged. -/
def idTxn : Txn := fun r => some r

/-- Concrete data exercising the theorems below. -/
def wRootA : ShadowNode := ShadowNode.mk 0 0 false []

def wRootB : ShadowNode := ShadowNode.mk 1 0 false []

def wStateA : TreeState := initialState wRootA

def wStateB : TreeState := initialState wRootB

/-- An interference schedule that swaps in a different tree during the
first attempt only. -/
def wEnv : Nat → TreeState → TreeState :=
  fun a s => if a = 1 then wStateB else s

/-- C1 (counterexample): with a transaction that always returns the abort
sentinel, `commit` does not return: `tryCommit` reports the abort as
failure, the loop retries it, and after 1024 attempts the
`assert(attempts < 1024)` fails — there is no normal return, contradicting
"the abort short-circuits the retry loop with no commit and no error". -/
theorem abort_loop_counterexample :
    commit abortTxn envId (initialState (ShadowNode.mk 0 0 false [])) =
      CommitResult.assertFailed
        (initialState (ShadowNode.mk 0 0 false [])) 1024 := by
  unfold commit maxCommitAttempts
  rw [show (1024 : Nat) - 1 = 1023 from rfl]
  rw [commitAux_abort 1023 0]

/-- C1 (amended): a transaction returning the abort sentinel makes the
`tryCommit` attempt return `false` with nothing changed — current root,
revision counter, feed, mount log and delegate count are all untouched —
but `commit` does not short-circuit: it treats the abort like any failed
attempt and re-runs the transaction, so a transaction that always aborts
never commits anything and drives the loop into the fatal 1024-attempt
assertion instead of a normal return, still with the state unchanged. -/
theorem abort_attempt_noop_and_loop_asserts :
    (∀ (t : Txn) (oldRoot : ShadowNode) (s : TreeState),
      t oldRoot = none → tryCommitWith t oldRoot s = (false, s)) ∧
    (∀ s : TreeState,
      commit abortTxn envId s = CommitResult.assertFailed s 1024 ∧
      commitTrace abortTxn envId s =
        List.replicate 1024 ⟨s.root, false, s⟩) := by
  constructor
  · intro t o s h
    exact tryCommitWith_abort s h
  · intro s
    unfold commit commitTrace maxCommitAttempts
    rw [show (1024 : Nat) - 1 = 1023 from rfl]
    rw [commitAux_abort 1023 0]
    exact ⟨rfl, rfl⟩

/-- C1 (witness): the abort hypothesis holds for the always-abort
transaction at a concrete node and state, and the attempt is a no-op
there. -/
theorem abort_attempt_noop_witness :
    abortTxn wRootA = none ∧
    tryCommitWith abortTxn wRootA wStateA = (false, wStateA) :=
  ⟨rfl, abort_attempt_noop_and_loop_asserts.1 abortTxn wRootA wStateA rfl⟩

/-- C7: conflict atomicity — when the live current root differs from the
snapshot the transaction was built against, `tryCommit` returns `false`
and every observable of the state is unchanged: current root, revision
counter, Revision Feed, mounted flags, delegate notifications. -/
theorem conflict_atomicity (t : Txn) (oldRoot : ShadowNode)
    (s : TreeState) (h : s.root ≠ oldRoot) :
    (tryCommitWith t oldRoot s).1 = false ∧
    (tryCommitWith t oldRoot s).2.root = s.root ∧
    (tryCommitWith t oldRoot s).2.revisionNumber = s.revisionNumber ∧
    (tryCommitWith t oldRoot s).2.feed = s.feed ∧
    (tryCommitWith t oldRoot s).2.mountLog = s.mountLog ∧
    (tryCommitWith t oldRoot s).2.delegateCalls = s.delegateCalls := by
  rw [tryCommitWith_conflict h]
  exact ⟨rfl, rfl, rfl, rfl, rfl, rfl⟩

/-- C7 (witness): a concrete conflicting attempt — the live root `wRootA`
differs from the snapshot `wRootB` — changes nothing. -/
theorem conflict_atomicity_witness :
    wStateA.root ≠ wRootB ∧
    ((tryCommitWith idTxn wRootB wStateA).1 = false ∧
      (tryCommitWith idTxn wRootB wStateA).2.root = wStateA.root ∧
      (tryCommitWith idTxn wRootB wStateA).2.revisionNumber =
        wStateA.revisionNumber ∧
      (tryCommitWith idTxn wRootB wStateA).2.feed = wStateA.feed ∧
      (tryCommitWith idTxn wRootB wStateA).2.mountLog = wStateA.mountLog ∧
      (tryCommitWith idTxn wRootB wStateA).2.delegateCalls =
        wStateA.delegateCalls) := by
  have hne : wStateA.root ≠ wRootB := by
    simp [wStateA, wRootA, wRootB, initialState]
  exact ⟨hne, conflict_atomicity idTxn wRootB wStateA hne⟩

/-- C9: every `mounted` transition of a node carrying a state handle is
immediately followed by exactly one `State::commit` of that node, a
`State::commit` never occurs except right after such a transition, and over
the whole pass each node receives exactly one `stateCommit` per `mounted`
event when it has state and none otherwise — in particular skipped
identical nodes and unmounted nodes get no state commit. -/
theorem state_commit_exactly_once (old new : List ShadowNode) :
    stateEventsWellFormed (updateMountedFlag old new) = true ∧
    ∀ x : ShadowNode,
      (updateMountedFlag old new).count (MountEvent.stateCommit x) =
        if x.hasState then
          (updateMountedFlag old new).count (MountEvent.mounted x)
        else 0 :=
  ⟨swf_umf old new, swf_count _ (swf_umf old new)⟩

/-- C4: the diff proceeds positionally in three stages — stage 1 walks the
common prefix, every pair inside the boundary sharing its family, and stops
at the first index whose entries do not share a family; from the boundary
on, the event list is exactly the stage-1 events of the matched prefix,
then stage 2 (each remaining new entry mounted, state committed, subtree
diffed against an empty old list), then stage 3 (each remaining old entry
unmounted, subtree diffed against an empty new list). -/
theorem diff_three_stage_decomposition (old new : List ShadowNode) :
    (∀ p ∈ (old.take (stage1Boundary old new)).zip
        (new.take (stage1Boundary old new)), p.1.sameFamily p.2) ∧
    (∀ x y, old[stage1Boundary old new]? = some x →
      new[stage1Boundary old new]? = some y →
      x ≠ y ∧ ¬ x.sameFamily y) ∧
    updateMountedFlag old new =
      stage1Events (old.take (stage1Boundary old new))
          (new.take (stage1Boundary old new))
        ++ (new.drop (stage1Boundary old new)).flatMap mountSubtreeEvents
        ++ (old.drop (stage1Boundary old new)).flatMap
             unmountSubtreeEvents :=
  ⟨stage1Boundary_shares_family old new, stage1Boundary_stop old new,
    umf_decompose old new⟩

/-- Concrete sibling lists exercising all three diff stages: index 0 is a
same-family update pair, index 1 diverges in family. -/
def wDiffA : ShadowNode := ShadowNode.mk 0 10 false []

def wDiffA2 : ShadowNode := ShadowNode.mk 1 10 true []

def wDiffB : ShadowNode := ShadowNode.mk 2 20 false []

def wDiffC : ShadowNode := ShadowNode.mk 3 30 false []

/-- C4 (witness): on `[wDiffA, wDiffB]` against `[wDiffA2, wDiffC]` the
boundary is 1, the prefix pair shares family 10, the entries at the
boundary diverge, and the decomposition holds. -/
theorem diff_three_stage_decomposition_witness :
    wDiffA.sameFamily wDiffA2 ∧
    (wDiffB ≠ wDiffC ∧ ¬ wDiffB.sameFamily wDiffC) ∧
    updateMountedFlag [wDiffA, wDiffB] [wDiffA2, wDiffC] =
      stage1Events [wDiffA] [wDiffA2]
        ++ [wDiffC].flatMap mountSubtreeEvents
        ++ [wDiffB].flatMap unmountSubtreeEvents := by
  have h := diff_three_stage_decomposition [wDiffA, wDiffB]
    [wDiffA2, wDiffC]
  have hb : stage1Boundary [wDiffA, wDiffB] [wDiffA2, wDiffC] = 1 := by
    simp [stage1Boundary, wDiffA, wDiffA2, wDiffB, wDiffC,
      ShadowNode.sameFamily, ShadowNode.family]
  refine ⟨?_, ?_, ?_⟩
  · refine h.1 (wDiffA, wDiffA2) ?_
    rw [hb]
    simp
  · refine h.2.1 wDiffB wDiffC ?_ ?_ <;> rw [hb] <;> rfl
  · have h3 := h.2.2
    rw [hb] at h3
    simpa using h3

/-- C5: remount ordering — whenever stage 1 processes a pair of distinct
nodes at the same index with the same family (all earlier pairs matching by
family), the emitted events contain, contiguously and in this order, the
new node's `setMounted(true)`, its state commit, and only then the old
node's `setMounted(false)`: the mount strictly precedes the unmount. -/
theorem remount_mount_before_unmount (old new : List ShadowNode) (j : Nat)
    (o n : ShadowNode) (ho : old[j]? = some o) (hn : new[j]? = some n)
    (hpre : ∀ p ∈ (old.take j).zip (new.take j), p.1.sameFamily p.2)
    (hne : o ≠ n) (hfam : o.sameFamily n) :
    ∃ pre post, updateMountedFlag old new =
      pre ++ (MountEvent.mounted n :: commitStateEvents n
        ++ (MountEvent.unmounted o
              :: updateMountedFlag o.children n.children)) ++ post :=
  umf_pair_block j old new o n ho hn hpre hne hfam

/-- C5 (witness): a concrete remount — same family 10, distinct nodes — at
index 0. -/
theorem remount_mount_before_unmount_witness :
    ([wDiffA][0]? = some wDiffA) ∧ ([wDiffA2][0]? = some wDiffA2) ∧
    wDiffA ≠ wDiffA2 ∧ wDiffA.sameFamily wDiffA2 ∧
    ∃ pre post, updateMountedFlag [wDiffA] [wDiffA2] =
      pre ++ (MountEvent.mounted wDiffA2 :: commitStateEvents wDiffA2
        ++ (MountEvent.unmounted wDiffA
              :: updateMountedFlag wDiffA.children wDiffA2.children))
      ++ post := by
  have hne : wDiffA ≠ wDiffA2 := by simp [wDiffA, wDiffA2]
  have hfam : wDiffA.sameFamily wDiffA2 := by
    simp [wDiffA, wDiffA2, ShadowNode.sameFamily, ShadowNode.family]
  exact ⟨rfl, rfl, hne, hfam,
    remount_mount_before_unmount [wDiffA] [wDiffA2] 0 wDiffA wDiffA2
      rfl rfl (by simp) hne hfam⟩

/-- C2: revision sequencing — every successful `tryCommit` increments the
revision counter by exactly one and pushes a revision carrying exactly that
number, and after any sequence of commits from the freshly constructed
state the numbers observed by the Revision Feed are exactly
`0, 1, ..., revisionNumber`: strictly increasing, gapless, starting at the
initial revision number 0. -/
theorem revision_numbers_monotone :
    (∀ (t : Txn) (s s2 : TreeState),
      tryCommit t s = (true, s2) →
      s2.revisionNumber = s.revisionNumber + 1 ∧
      ∃ newRoot, t s.root = some newRoot ∧
        s2.feed = s.feed
          ++ [{ root := newRoot, number := s.revisionNumber + 1 }]) ∧
    (∀ (root0 : ShadowNode) (ts : List Txn),
      feedNumbers (applyTxns ts (initialState root0)) =
        List.range ((applyTxns ts (initialState root0)).revisionNumber
          + 1)) := by
  constructor
  · intro t s s2 h
    obtain ⟨hr, newRoot, ht, rfl⟩ := tryCommitWith_true_inv h
    exact ⟨rfl, newRoot, ht, rfl⟩
  · intro root0 ts
    exact feedInv_applyTxns ts (initialState root0) (feedInv_initial root0)

/-- C2 (witness): a concrete successful commit of the identity transaction
on the initial state increments 0 to 1 and pushes number 1; the feed of a
two-commit sequence reads `[0, 1, 2]`. -/
theorem revision_numbers_monotone_witness :
    (tryCommit idTxn wStateA = (true, commitStep wRootA wRootA wStateA)) ∧
    ((commitStep wRootA wRootA wStateA).revisionNumber =
        wStateA.revisionNumber + 1 ∧
      ∃ newRoot, idTxn wStateA.root = some newRoot ∧
        (commitStep wRootA wRootA wStateA).feed = wStateA.feed
          ++ [{ root := newRoot, number := wStateA.revisionNumber + 1 }]) ∧
    feedNumbers (applyTxns [idTxn, idTxn] (initialState wRootA)) =
      List.range
        ((applyTxns [idTxn, idTxn] (initialState wRootA)).revisionNumber
          + 1) := by
  have hsucc : tryCommit idTxn wStateA =
      (true, commitStep wRootA wRootA wStateA) := by
    unfold tryCommit
    exact tryCommitWith_success rfl rfl
  exact ⟨hsucc, revision_numbers_monotone.1 idTxn wStateA _ hsucc,
    revision_numbers_monotone.2 wRootA [idTxn, idTxn]⟩

theorem commitAux_success_step {t : Txn}
    {env : Nat → TreeState → TreeState} {attempts : Nat} {s s2 : TreeState}
    (fuel : Nat)
    (h : tryCommitWith t s.root (env (attempts + 1) s) = (true, s2)) :
    commitAux t env fuel attempts s =
      (CommitResult.returned s2 (attempts + 1), [⟨s.root, true, s2⟩]) := by
  rw [commitAux, h]

theorem commitAux_conflict_step {t : Txn}
    {env : Nat → TreeState → TreeState} {attempts : Nat} {s s2 : TreeState}
    (fuel : Nat)
    (h : tryCommitWith t s.root (env (attempts + 1) s) = (false, s2)) :
    commitAux t env (fuel + 1) attempts s =
      ((commitAux t env fuel (attempts + 1) s2).1,
        ⟨s.root, false, s2⟩ :: (commitAux t env fuel (attempts + 1) s2).2)
    := by
  rw [commitAux, h]

/-- C3: no transaction is applied to a stale root — a successful
`tryCommit` requires the snapshot the transaction was run against to be
exactly the live current root at swap time; a changed root makes the
attempt fail; and the retry loop re-invokes the transaction on the root it
reads fresh at each iteration: the first attempt's snapshot is the current
root and each later attempt's snapshot is the current root of the state the
previous failed attempt left behind. -/
theorem no_stale_commit :
    (∀ (t : Txn) (oldRoot : ShadowNode) (s s2 : TreeState),
      tryCommitWith t oldRoot s = (true, s2) → s.root = oldRoot) ∧
    (∀ (t : Txn) (oldRoot : ShadowNode) (s : TreeState),
      s.root ≠ oldRoot → (tryCommitWith t oldRoot s).1 = false) ∧
    (∀ (t : Txn) (env : Nat → TreeState → TreeState) (s : TreeState)
        (r : AttemptRec),
      (commitTrace t env s)[0]? = some r → r.snapshot = s.root) ∧
    (∀ (t : Txn) (env : Nat → TreeState → TreeState) (s : TreeState)
        (i : Nat) (r1 r2 : AttemptRec),
      (commitTrace t env s)[i]? = some r1 →
      (commitTrace t env s)[i + 1]? = some r2 →
      r2.snapshot = r1.after.root) := by
  refine ⟨?_, ?_, ?_, ?_⟩
  · intro t o s s2 h
    exact (tryCommitWith_true_inv h).1
  · intro t o s h
    rw [tryCommitWith_conflict h]
  · intro t env s r h
    exact (commitAux_chain t env 1023 0 s).1 r h
  · intro t env s i r1 r2 h1 h2
    exact (commitAux_chain t env 1023 0 s).2 i r1 r2 h1 h2

/-- C3 (witness): a successful attempt at the current root, and a
two-attempt run — conflict caused by `wEnv` swapping in `wStateB`, then
success — whose second snapshot is exactly the root left by the failed
attempt. -/
theorem no_stale_commit_witness :
    (tryCommitWith idTxn wRootA wStateA =
        (true, commitStep wRootA wRootA wStateA)) ∧
    wStateA.root = wRootA ∧
    ((commitTrace idTxn wEnv wStateA)[0]? =
        some ⟨wRootA, false, wStateB⟩) ∧
    ((commitTrace idTxn wEnv wStateA)[1]? =
        some ⟨wRootB, true, commitStep wRootB wRootB wStateB⟩) ∧
    (⟨wRootB, true, commitStep wRootB wRootB wStateB⟩
        : AttemptRec).snapshot =
      ((⟨wRootA, false, wStateB⟩ : AttemptRec).after).root := by
  have hsucc : tryCommitWith idTxn wRootA wStateA =
      (true, commitStep wRootA wRootA wStateA) :=
    tryCommitWith_success rfl rfl
  have hconf : tryCommitWith idTxn wStateA.root (wEnv 1 wStateA) =
      (false, wStateB) := by
    rw [show wEnv 1 wStateA = wStateB from rfl]
    refine tryCommitWith_conflict ?_
    simp [wStateA, wStateB, wRootA, wRootB, initialState]
  have hsucc2 : tryCommitWith idTxn wStateB.root (wEnv 2 wStateB) =
      (true, commitStep wRootB wRootB wStateB) := by
    rw [show wEnv 2 wStateB = wStateB from rfl]
    exact tryCommitWith_success rfl rfl
  have htr : commitTrace idTxn wEnv wStateA =
      [⟨wRootA, false, wStateB⟩,
       ⟨wRootB, true, commitStep wRootB wRootB wStateB⟩] := by
    unfold commitTrace maxCommitAttempts
    rw [show (1024 : Nat) - 1 = 1022 + 1 from rfl]
    rw [commitAux_conflict_step 1022 hconf]
    rw [commitAux_success_step 1022 hsucc2]
    rfl
  have h0 : (commitTrace idTxn wEnv wStateA)[0]? =
      some ⟨wRootA, false, wStateB⟩ := by rw [htr]; rfl
  have h1 : (commitTrace idTxn wEnv wStateA)[1]? =
      some ⟨wRootB, true, commitStep wRootB wRootB wStateB⟩ := by
    rw [htr]; rfl
  exact ⟨hsucc, no_stale_commit.1 idTxn wRootA wStateA _ hsucc, h0, h1,
    no_stale_commit.2.2.2 idTxn wEnv wStateA 0 _ _ h0 h1⟩

/-- C8 (counterexample): a run in which `commit` does perform 1024 failed
`tryCommit` attempts — the always-aborting transaction fails every attempt
and the assertion only fires after the 1024th failure has happened, so
"never performs 1024 or more failed attempts" is off by one. -/
theorem retry_cap_counterexample :
    failedCount (commitTrace abortTxn envId
      (initialState (ShadowNode.mk 0 0 false []))) = 1024 := by
  unfold commitTrace maxCommitAttempts
  rw [show (1024 : Nat) - 1 = 1023 from rfl]
  rw [commitAux_abort 1023 0]
  unfold failedCount
  rw [List.countP_replicate]
  rfl

/-- C8 (amended): the retry loop is guarded by the hard cap 1024 — a
normally returning `commit` performed strictly fewer than 1024 failed
attempts (its final attempt succeeded and produced the returned state),
and a run that accumulates 1024 failed attempts does not return normally:
it ends in the assertion failure, a fatal halt, with the attempt counter at
exactly 1024 and every recorded attempt failed. -/
theorem retry_cap_behavior (t : Txn) (env : Nat → TreeState → TreeState)
    (s : TreeState) :
    (∀ s2 a, commit t env s = CommitResult.returned s2 a →
      a ≤ 1024 ∧ failedCount (commitTrace t env s) = a - 1 ∧
      failedCount (commitTrace t env s) < 1024 ∧
      ∃ r, (commitTrace t env s).getLast? = some r ∧ r.ok = true ∧
        r.after = s2) ∧
    (∀ s2 a, commit t env s = CommitResult.assertFailed s2 a →
      a = 1024 ∧ failedCount (commitTrace t env s) = 1024 ∧
      ∀ r ∈ commitTrace t env s, r.ok = false) := by
  constructor
  · intro s2 a h
    obtain ⟨h1, h2, h3, hr⟩ :=
      commitAux_returned_spec t env 1023 0 s s2 a h
    have h4 : failedCount (commitTrace t env s) = a - 1 := h3
    refine ⟨by omega, h4, by omega, hr⟩
  · intro s2 a h
    obtain ⟨h1, h2, h3⟩ :=
      commitAux_assertFailed_spec t env 1023 0 s s2 a h
    exact ⟨by omega, h2, h3⟩

/-- C8 (witness): the returned branch at a one-attempt success (0 failed
attempts) and the assert branch at the always-aborting run (1024 failed
attempts, none successful). -/
theorem retry_cap_behavior_witness :
    (commit idTxn envId wStateA =
        CommitResult.returned (commitStep wRootA wRootA wStateA) 1) ∧
    (1 ≤ 1024 ∧ failedCount (commitTrace idTxn envId wStateA) = 1 - 1 ∧
      failedCount (commitTrace idTxn envId wStateA) < 1024 ∧
      ∃ r, (commitTrace idTxn envId wStateA).getLast? = some r ∧
        r.ok = true ∧ r.after = commitStep wRootA wRootA wStateA) ∧
    (commit abortTxn envId wStateA =
        CommitResult.assertFailed wStateA 1024) ∧
    (1024 = 1024 ∧ failedCount (commitTrace abortTxn envId wStateA) = 1024 ∧
      ∀ r ∈ commitTrace abortTxn envId wStateA, r.ok = false) := by
  have hsucc : commit idTxn envId wStateA =
      CommitResult.returned (commitStep wRootA wRootA wStateA) 1 :=
    (commit_first_success (show idTxn wStateA.root = some wRootA from
      rfl)).1
  have habort : commit abortTxn envId wStateA =
      CommitResult.assertFailed wStateA 1024 := by
    unfold commit maxCommitAttempts
    rw [show (1024 : Nat) - 1 = 1023 from rfl]
    rw [commitAux_abort 1023 0]
  exact ⟨hsucc, (retry_cap_behavior idTxn envId wStateA).1 _ 1 hsucc,
    habort, (retry_cap_behavior abortTxn envId wStateA).2 wStateA 1024
      habort⟩

/-- C6: mount/unmount conservation — after one diff pass, every node
reachable in the new forest whose family is matched by no node reachable in
the old forest ends with `mounted = true`; every node reachable in the old
forest with no family match in the new forest ends with `mounted = false`;
and any same-index pair in the family-matched common prefix has the
recursive diff of its children embedded in the pass (empty for identical
pairs, whose subtrees are skipped with identical semantics). -/
theorem mount_unmount_conservation (old new : List ShadowNode) :
    (∀ x ∈ reachForest new,
      (∀ y ∈ reachForest old, y.family ≠ x.family) →
      finalFlag (updateMountedFlag old new) x = some true) ∧
    (∀ x ∈ reachForest old,
      (∀ y ∈ reachForest new, y.family ≠ x.family) →
      finalFlag (updateMountedFlag old new) x = some false) ∧
    (∀ (j : Nat) (o n : ShadowNode),
      old[j]? = some o → new[j]? = some n →
      (∀ p ∈ (old.take (j + 1)).zip (new.take (j + 1)),
        p.1.sameFamily p.2) →
      ∃ pre post, updateMountedFlag old new =
        pre ++ updateMountedFlag o.children n.children ++ post) := by
  refine ⟨?_, ?_, ?_⟩
  · intro x hx hfam
    exact finalFlag_unmatched_new hx hfam
  · intro x hx hfam
    exact finalFlag_unmatched_old hx hfam
  · intro j o n ho hn hpre
    exact umf_recurse_at j old new o n ho hn hpre

/-- Nested witnesses for the conservation claim: `wParent` (family 1, one
child of family 7) is replaced by `wParent2` (same family 1, one child of
the fresh family 9). -/
def wChildOld : ShadowNode := ShadowNode.mk 11 7 false []

def wChildNew : ShadowNode := ShadowNode.mk 13 9 false []

def wParent : ShadowNode := ShadowNode.mk 10 1 false [wChildOld]

def wParent2 : ShadowNode := ShadowNode.mk 12 1 true [wChildNew]

/-- C6 (witness): in the pass from `[wParent]` to `[wParent2]`, the
inserted child of fresh family 9 ends mounted, the removed child of family
7 ends unmounted, and the matched parents of family 1 recurse into their
children. -/
theorem mount_unmount_conservation_witness :
    (wChildNew ∈ reachForest [wParent2]) ∧
    (∀ y ∈ reachForest [wParent], y.family ≠ wChildNew.family) ∧
    finalFlag (updateMountedFlag [wParent] [wParent2]) wChildNew =
      some true ∧
    (wChildOld ∈ reachForest [wParent]) ∧
    (∀ y ∈ reachForest [wParent2], y.family ≠ wChildOld.family) ∧
    finalFlag (updateMountedFlag [wParent] [wParent2]) wChildOld =
      some false ∧
    ∃ pre post, updateMountedFlag [wParent] [wParent2] =
      pre ++ updateMountedFlag wParent.children wParent2.children
      ++ post := by
  have hx1 : wChildNew ∈ reachForest [wParent2] := by
    simp [wParent2, wChildNew, reachForest_cons, reachForest_nil,
      reach_def]
  have hf1 : ∀ y ∈ reachForest [wParent], y.family ≠ wChildNew.family := by
    simp [wParent, wChildOld, wChildNew, reachForest_cons,
      reachForest_nil, reach_def, ShadowNode.family]
  have hx2 : wChildOld ∈ reachForest [wParent] := by
    simp [wParent, wChildOld, reachForest_cons, reachForest_nil, reach_def]
  have hf2 : ∀ y ∈ reachForest [wParent2], y.family ≠ wChildOld.family := by
    simp [wParent2, wChildOld, wChildNew, reachForest_cons,
      reachForest_nil, reach_def, ShadowNode.family]
  have hpre : ∀ p ∈ ([wParent].take (0 + 1)).zip
      ([wParent2].take (0 + 1)), p.1.sameFamily p.2 := by
    simp [wParent, wParent2, ShadowNode.sameFamily, ShadowNode.family]
  have h := mount_unmount_conservation [wParent] [wParent2]
  exact ⟨hx1, hf1, h.1 wChildNew hx1 hf1, hx2, hf2,
    h.2.1 wChildOld hx2 hf2,
    h.2.2 0 wParent wParent2 rfl rfl hpre⟩

/-- The tree committed by the `commitEmptyTree` witness: one child under
the root. -/
def wRootC : ShadowNode := ShadowNode.mk 20 2 false [wDiffA]

def wStateC : TreeState := initialState wRootC

/-- C10: `commitEmptyTree` commits the transaction copying the current
root with an empty child list; with nobody interfering it succeeds on the
first attempt, the new current root has no children, the diff pass of that
commit runs the old children against an empty new list, and every node of
every child subtree of the previous root ends with `mounted = false`. -/
theorem commit_empty_tree_unmounts_all (s : TreeState) :
    commitEmptyTree envId s =
      CommitResult.returned
        (commitStep s.root
          (ShadowNode.mk s.root.ident s.root.family s.root.hasState []) s)
        1 ∧
    (commitStep s.root
        (ShadowNode.mk s.root.ident s.root.family s.root.hasState [])
        s).root.children = [] ∧
    (commitStep s.root
        (ShadowNode.mk s.root.ident s.root.family s.root.hasState [])
        s).mountLog = s.mountLog ++ updateMountedFlag s.root.children [] ∧
    ∀ x ∈ reachForest s.root.children,
      finalFlag (updateMountedFlag s.root.children []) x = some false := by
  refine ⟨?_, rfl, rfl, ?_⟩
  · exact (@commit_first_success emptyTreeTxn s
      (ShadowNode.mk s.root.ident s.root.family s.root.hasState [])
      rfl).1
  · intro x hx
    refine finalFlag_unmatched_old hx ?_
    intro y hy
    rw [reachForest_nil] at hy
    simp at hy

/-- C10 (witness): the single child subtree of `wRootC` ends unmounted
after `commitEmptyTree`'s diff pass. -/
theorem commit_empty_tree_unmounts_all_witness :
    (wDiffA ∈ reachForest wStateC.root.children) ∧
    finalFlag (updateMountedFlag wStateC.root.children []) wDiffA =
      some false := by
  have hx : wDiffA ∈ reachForest wStateC.root.children := by
    simp [wStateC, wRootC, wDiffA, initialState, ShadowNode.children,
      reachForest_cons, reachForest_nil, reach_def]
  exact ⟨hx, (commit_empty_tree_unmounts_all wStateC).2.2.2 wDiffA hx⟩
